import Mathlib

/-!
Verification development for the FML polyspectrum estimators
(`FML/ComputePowerSpectra/ComputePowerSpectrum.h`) and the Fourier-space
smoothing filters (`SmoothingFourier.h`).

Floating-point `double` values are modelled as exact rationals `ℚ`;
`std::complex<double>` is modelled by the structure `Cplx` below.  The
transcendental library functions (`std::exp`, `std::cos`, `std::sin`) that the
source calls are passed in as explicit function parameters, since no claim
depends on their analytic values.  All code runs on one task, so MPI
all-reduces are identities; each definition notes the source lines it embeds.
-/

/-- Model of `std::complex<double>`: a pair of exact rationals. -/
structure Cplx where
  re : ℚ
  im : ℚ
deriving DecidableEq

/-- Complex addition. -/
def Cplx.add (a b : Cplx) : Cplx := ⟨a.re + b.re, a.im + b.im⟩

/-- Complex subtraction. -/
def Cplx.sub (a b : Cplx) : Cplx := ⟨a.re - b.re, a.im - b.im⟩

/-- Complex multiplication. -/
def Cplx.mul (a b : Cplx) : Cplx :=
  ⟨a.re * b.re - a.im * b.im, a.re * b.im + a.im * b.re⟩

/-- Multiplication by a real scalar (`sum * norm` in the source). -/
def Cplx.scale (a : Cplx) (q : ℚ) : Cplx := ⟨a.re * q, a.im * q⟩

/-- `std::norm`: the squared magnitude `re^2 + im^2`. -/
def Cplx.normSq (a : Cplx) : ℚ := a.re * a.re + a.im * a.im

/-- The IEEE-754 double value of the constant `M_PI`, as an exact rational:
`884279719003555 / 2^48`. -/
def mPiQ : ℚ := 884279719003555 / 281474976710656

/-- The double value `2.0 * M_PI` used throughout the source. -/
def twoPi : ℚ := 2 * mPiQ

/-- Dot product of two coefficient lists (`kvec[idim] * x[idim]` summed). -/
def dotQ (a b : List ℚ) : ℚ := (List.zipWith (fun x y => x * y) a b).sum

/-- Modelled from the spec: the Fourier-view coordinates of a flat local
Fourier index (`FFTWGrid` is not under `src/`).  The Fourier view has shape
`local_nx x Nmesh^(d-2) x (Nmesh/2+1)`, addressed row-major, and the first
axis carries the `local_x_start` offset (spec section 3). Requires `d >= 2`. -/
def fourier_coords (Nmesh d lxs ind : ℕ) : List ℕ :=
  let lastSize := Nmesh / 2 + 1
  let last := ind % lastSize
  let rest := ind / lastSize
  let first := rest / Nmesh ^ (d - 2) + lxs
  let mids := (List.range (d - 2)).map (fun j => rest / Nmesh ^ (d - 3 - j) % Nmesh)
  first :: mids ++ [last]

/-- Modelled from the spec: the integer mode of one non-last axis,
`j' = j` if `j <= N/2` else `j - N` (spec section 3, wavevector convention). -/
def axis_mode (Nmesh c : ℕ) : ℤ := if c ≤ Nmesh / 2 then (c : ℤ) else (c : ℤ) - Nmesh

/-- Modelled from the spec: the integer mode vector of a flat Fourier index;
the wavevector is `2*pi` times this vector.  The packed last axis keeps its
plain coordinate in `[0, N/2]`. -/
def fourier_mode (Nmesh d lxs ind : ℕ) : List ℤ :=
  let cs := fourier_coords Nmesh d lxs ind
  (cs.take (d - 1)).map (axis_mode Nmesh)
    ++ (cs.drop (d - 1)).map (fun (c : ℕ) => (c : ℤ))

/-- Squared integer norm of the mode vector; the source's `kmag^2` equals
`(2*pi)^2` times this, so it vanishes exactly when `kmag` does. -/
def fourier_mode2 (Nmesh d lxs ind : ℕ) : ℤ :=
  ((fourier_mode Nmesh d lxs ind).map (fun m => m * m)).sum

/-- The rational wavevector `2*pi * mode` handed to the abstract complex
exponential (`get_fourier_wavevector_from_index`). -/
def fourier_kvec (Nmesh d lxs ind : ℕ) : List ℚ :=
  (fourier_mode Nmesh d lxs ind).map (fun m => twoPi * (m : ℚ))

/-- The list of owned flat Fourier indices: the source's loop bound
`NmeshTotLocal = Local_nx * Nmesh^(N-2) * (Nmesh/2+1)`
(ComputePowerSpectrum.h:282). -/
def fourier_range (Local_nx Nmesh d : ℕ) : List ℕ :=
  List.range (Local_nx * Nmesh ^ (d - 2) * (Nmesh / 2 + 1))

/-- Binning parameters `(n, kmin, kmax)` of a `PowerSpectrumBinning`
(linear spacing). -/
structure BinParams where
  n : ℕ
  kmin : ℚ
  kmax : ℚ
deriving DecidableEq

/-- Modelled from the spec: the bin locator of `PowerSpectrumBinning`
(`PowerSpectrumBinning.h` is not under `src/`): linear bins over
`[kmin, kmax)`; out-of-range wavenumbers are dropped (spec section 4.5). -/
def BinParams.bin_of (bp : BinParams) (k : ℚ) : Option ℕ :=
  if bp.kmin ≤ k ∧ k < bp.kmax then
    some (min (bp.n - 1) (Int.toNat ⌊(k - bp.kmin) / (bp.kmax - bp.kmin) * bp.n⌋))
  else none

/-- The three parallel accumulator arrays of a `PowerSpectrumBinning`,
as total functions on bin indices. -/
structure BinAccum where
  pofk : ℕ → ℚ
  kbin : ℕ → ℚ
  count : ℕ → ℚ

/-- The zeroed binning (`reset()`). -/
def binZero : BinAccum := ⟨fun _ => 0, fun _ => 0, fun _ => 0⟩

/-- Modelled from the spec: `add_to_bin(k, value, weight)` locates the bin for
`k` and, when in range, accumulates the weighted value, the weighted `k` and
the weight (spec section 4.5). -/
def add_to_bin (bp : BinParams) (acc : BinAccum) (k value weight : ℚ) : BinAccum :=
  match bp.bin_of k with
  | none => acc
  | some b =>
    ⟨Function.update acc.pofk b (acc.pofk b + value * weight),
     Function.update acc.kbin b (acc.kbin b + k * weight),
     Function.update acc.count b (acc.count b + weight)⟩

/-- Modelled from the spec: `normalize()` all-reduces (identity on one task)
and divides `pofk` and `kbin` by `count` where `count > 0`; a bin with no
modes keeps `pofk` and gets the bin-midpoint `kbin` (spec section 4.5). -/
def BinAccum.normalize (bp : BinParams) (acc : BinAccum) : BinAccum :=
  ⟨fun b => if 0 < acc.count b then acc.pofk b / acc.count b else acc.pofk b,
   fun b => if 0 < acc.count b then acc.kbin b / acc.count b
            else bp.kmin + (bp.kmax - bp.kmin) * (2 * b + 1) / (2 * bp.n),
   acc.count⟩

/-- The packed-axis weight of `bin_up_power_spectrum`
(ComputePowerSpectrum.h:293-294): `last_coord = ind % (Nmesh/2+1)` and
weight `2.0` when `0 < last_coord < Nmesh/2`, else `1.0`. -/
def bin_up_weight (Nmesh ind : ℕ) : ℚ :=
  let last_coord := ind % (Nmesh / 2 + 1)
  if 0 < last_coord ∧ last_coord < Nmesh / 2 then 2 else 1

/-- The accumulation loop of `bin_up_power_spectrum`
(ComputePowerSpectrum.h:291-303): for each owned index add
`|delta(ind)|^2` at `kmag(ind)` with the packed-axis weight.  The wavenumber
norm `kmag` (an irrational square root in general) is passed as a function. -/
def bin_up_accumulate (Nmesh : ℕ) (bp : BinParams) (delta : ℕ → Cplx)
    (kmagOf : ℕ → ℚ) (inds : List ℕ) : BinAccum :=
  inds.foldl
    (fun acc ind =>
      add_to_bin bp acc (kmagOf ind) (Cplx.normSq (delta ind)) (bin_up_weight Nmesh ind))
    binZero

/-- `bin_up_power_spectrum` (ComputePowerSpectrum.h:269-307): reset, accumulate
over the owned Fourier indices, then normalize. -/
def bin_up_power_spectrum (Nmesh Local_nx d : ℕ) (bp : BinParams)
    (delta : ℕ → Cplx) (kmagOf : ℕ → ℚ) : BinAccum :=
  BinAccum.normalize bp
    (bin_up_accumulate Nmesh bp delta kmagOf (fourier_range Local_nx Nmesh d))

/-- The per-particle dot product `kx = sum_idim kvec[idim] * x[idim]`
(ComputePowerSpectrum.h:345-348); particle positions are modelled as
functions from the coordinate index. -/
def dotIdx (d : ℕ) (kv : List ℚ) (x : ℕ → ℚ) : ℚ :=
  ((List.range d).map (fun j => kv.getD j 0 * x j)).sum

/-- The particle sum of `compute_power_spectrum_direct_summation`
(ComputePowerSpectrum.h:338-353): real and imaginary parts of
`sum_i exp(-i k.x_i)` accumulated by reduction.  `cexp t` models
`std::exp(I*t)`, so the source's `std::exp(-kx*I)` is `cexp (-kx)`. -/
def ds_sum (cexp : ℚ → Cplx) (d : ℕ) (kv : List ℚ) (parts : List (ℕ → ℚ)) : Cplx :=
  ⟨(parts.map (fun x => (cexp (-(dotIdx d kv x))).re)).sum,
   (parts.map (fun x => (cexp (-(dotIdx d kv x))).im)).sum⟩

/-- The Fourier grid filled by `compute_power_spectrum_direct_summation`
(ComputePowerSpectrum.h:336-357): the particle sum, with `1.0` subtracted
from the sum when `ThisTask == 0 and complex_index == 0`, scaled by
`norm = 1/NumPart`. -/
def ds_grid (cexp : ℚ → Cplx) (Nmesh d lxs : ℕ) (parts : List (ℕ → ℚ))
    (task ind : ℕ) : Cplx :=
  let kv := fourier_kvec Nmesh d lxs ind
  let s := ds_sum cexp d kv parts
  let s := if task = 0 ∧ ind = 0 then s.sub ⟨1, 0⟩ else s
  s.scale (1 / (parts.length : ℚ))

/-- Follows the claim's words, for comparison with `ds_grid`:
`delta(k) = (1/NumPart) * sum_i exp(-i k.x_i)`, and then `1` is subtracted
at the `k = 0` index on the rank that owns it. -/
def ds_grid_claimed (cexp : ℚ → Cplx) (Nmesh d lxs : ℕ) (parts : List (ℕ → ℚ))
    (task ind : ℕ) : Cplx :=
  let kv := fourier_kvec Nmesh d lxs ind
  let v := (ds_sum cexp d kv parts).scale (1 / (parts.length : ℚ))
  if task = 0 ∧ ind = 0 then v.sub ⟨1, 0⟩ else v

/-- `compute_power_spectrum_direct_summation` (ComputePowerSpectrum.h:316-365):
fill the grid by direct summation, bin it up, then subtract the shot noise
`1/NumPart` from every bin. -/
def compute_power_spectrum_direct_summation (cexp : ℚ → Cplx) (kmagOf : ℕ → ℚ)
    (Ngrid d lxs Local_nx task : ℕ) (parts : List (ℕ → ℚ)) (bp : BinParams) :
    BinAccum :=
  let binned := bin_up_power_spectrum Ngrid Local_nx d bp
    (ds_grid cexp Ngrid d lxs parts task) kmagOf
  ⟨fun b => if b < bp.n then binned.pofk b - 1 / (parts.length : ℚ) else binned.pofk b,
   binned.kbin, binned.count⟩

/-- The particle shift of `compute_power_spectrum_interlacing`
(ComputePowerSpectrum.h:579-590): every component gains `shift`; components
`1..N-1` wrap at `1.0`, component `0` does not (slab communication handles it).
Positions are functions of the coordinate index; indices `>= d` are untouched. -/
def interlace_shift (s : ℚ) (d : ℕ) (pos : ℕ → ℚ) : ℕ → ℚ :=
  fun j =>
    if j = 0 then pos 0 + s
    else if j < d then (if 1 ≤ pos j + s then pos j + s - 1 else pos j + s)
    else pos j

/-- The inverse shift of `compute_power_spectrum_interlacing`
(ComputePowerSpectrum.h:602-613): every component loses `shift`; components
`1..N-1` wrap at `0.0`, component `0` does not. -/
def interlace_unshift (s : ℚ) (d : ℕ) (pos : ℕ → ℚ) : ℕ → ℚ :=
  fun j =>
    if j = 0 then pos 0 - s
    else if j < d then (if pos j - s < 0 then pos j - s + 1 else pos j - s)
    else pos j

/-- The interlacing phase `std::exp(I * ksum * shift)` with
`ksum = sum_idim kvec[idim]` (ComputePowerSpectrum.h:623-628). -/
def interlace_kfactor (cexp : ℚ → Cplx) (Nmesh d lxs ind : ℕ) : Cplx :=
  cexp ((fourier_kvec Nmesh d lxs ind).sum * (1 / (2 * (Nmesh : ℚ))))

/-- The grid combination of `compute_power_spectrum_interlacing`
(ComputePowerSpectrum.h:629): `ff = (ff + norm * gg) / 2.0`. -/
def interlace_combine (cexp : ℚ → Cplx) (Nmesh d lxs : ℕ) (G1 G2 : ℕ → Cplx) :
    ℕ → Cplx :=
  fun ind => ((G1 ind).add ((interlace_kfactor cexp Nmesh d lxs ind).mul (G2 ind))).scale (1 / 2)

/-- `compute_power_spectrum_interlacing` (ComputePowerSpectrum.h:552-642).
`scatterFFT` abstracts the composition of `particles_to_grid` and `fftw_r2c`
(both outside `src/`), and `deconv` abstracts
`deconvolve_window_function_fourier` (outside `src/`): scatter the particles,
scatter them again after the half-cell shift, combine the two Fourier grids,
deconvolve once, bin up, and subtract the shot noise `1/NumPartTotal`. -/
def compute_power_spectrum_interlacing (cexp : ℚ → Cplx) (kmagOf : ℕ → ℚ)
    (scatterFFT : List (ℕ → ℚ) → ℕ → Cplx) (deconv : (ℕ → Cplx) → ℕ → Cplx)
    (Ngrid d lxs Local_nx npt : ℕ) (parts : List (ℕ → ℚ)) (bp : BinParams) :
    BinAccum :=
  let shift : ℚ := 1 / (2 * (Ngrid : ℚ))
  let G1 := scatterFFT parts
  let G2 := scatterFFT (parts.map (interlace_shift shift d))
  let combined := interlace_combine cexp Ngrid d lxs G1 G2
  let binned := bin_up_power_spectrum Ngrid Local_nx d bp (deconv combined) kmagOf
  ⟨fun b => if b < bp.n then binned.pofk b - 1 / (npt : ℚ) else binned.pofk b,
   binned.kbin, binned.count⟩

/-- The vanishing of the divisor `kmag * rnorm` in the `mu` computation of the
grid-based `compute_power_spectrum_multipoles` (ComputePowerSpectrum.h:203-207):
`kmag = 2*pi*sqrt(fourier_mode2)` vanishes iff `fourier_mode2 = 0`, and the
line-of-sight norm `rnorm = sqrt(los.los)` vanishes iff `dotQ los los = 0`. -/
def mu_divisor_vanishes (Nmesh d lxs : ℕ) (los : List ℚ) (ind : ℕ) : Prop :=
  fourier_mode2 Nmesh d lxs ind = 0 ∨ dotQ los los = 0

/-- Modelled from the spec: elementwise `operator+=` on `PowerSpectrumBinning`
(`PowerSpectrumBinning.h` is not under `src/`); the estimator sums the three
parallel arrays of two binnings (spec section 4.6, mean of the d results). -/
def binAdd (a b : BinAccum) : BinAccum :=
  ⟨fun i => a.pofk i + b.pofk i, fun i => a.kbin i + b.kbin i, fun i => a.count i + b.count i⟩

/-- The averaging and shot-noise tail of the particle-based
`compute_power_spectrum_multipoles` (ComputePowerSpectrum.h:481-500):
`results dir` holds the binnings computed with coordinate axis `dir` as line
of sight; each multipole is the sum over the `d` axes of `pofk`, `count` and
`kbin`, divided by `d` on the bins `i < nbin`, and `1/NumPartTotal` is
subtracted from every `pofk` bin of the monopole `Pell[0]` only. -/
def multipoles_average (d nell nbin npt : ℕ) (results : ℕ → List BinAccum) :
    List BinAccum :=
  (List.range nell).map (fun ell =>
    let s := (List.range d).foldl
      (fun acc dir => binAdd acc ((results dir).getD ell binZero)) binZero
    let m : BinAccum :=
      ⟨fun i => if i < nbin then s.pofk i / (d : ℚ) else s.pofk i,
       fun i => if i < nbin then s.kbin i / (d : ℚ) else s.kbin i,
       fun i => if i < nbin then s.count i / (d : ℚ) else s.count i⟩
    if ell = 0 then
      ⟨fun i => if i < nbin then m.pofk i - 1 / (npt : ℚ) else m.pofk i, m.kbin, m.count⟩
    else m)

/-- The `binomial` lambda of the grid-based multipole estimator
(ComputePowerSpectrum.h:231-237): `res *= (n - i) / (k - i)` for
`i = 0, ..., k-1`, in exact arithmetic. -/
def codeBinomial (n k : ℕ) : ℚ :=
  (List.range k).foldl
    (fun res (i : ℕ) => res * ((n : ℚ) - (i : ℚ)) / ((k : ℚ) - (i : ℚ))) 1

/-- The `summand_legendre_polynomial` lambda (ComputePowerSpectrum.h:240-244):
`sign * binomial(ell, k) * binomial(2*ell - 2*k, ell) / 2^ell` with
`sign = 1` for even `k` and `-1` for odd `k`.  It is only invoked with
`2*k <= ell`, where the natural subtraction agrees with the C++ one. -/
def summand_legendre (k ell : ℕ) : ℚ :=
  (if k % 2 = 0 then 1 else -1) * codeBinomial ell k
    * codeBinomial (2 * ell - 2 * k) ell / 2 ^ ell

/-- The moment-to-multipole projection loop (ComputePowerSpectrum.h:246-261):
from the list of accumulated `pofk` arrays `<|delta|^2 mu^m>` build
`temp[ell][i] = sum_{k=0}^{ell/2} Pell[ell-2k].pofk[i] * summand(k, ell)`,
which is then copied back over `Pell`. -/
def legendre_project (Pell : List (ℕ → ℚ)) : List (ℕ → ℚ) :=
  (List.range Pell.length).map (fun ell => fun i =>
    ((List.range (ell / 2 + 1)).map (fun k =>
      Pell.getD (ell - 2 * k) (fun _ => 0) i * summand_legendre k ell)).sum)

/-- The digit decode of the polyspectrum compute loop
(ComputePowerSpectrum.h:1172-1175): `ik[ii] = i / nbins^(order-1-ii) % nbins`,
so `ik[0]` is the most significant digit. -/
def poly_digits_msb (nbins order i : ℕ) : List ℕ :=
  (List.range order).map (fun ii => i / nbins ^ (order - 1 - ii) % nbins)

/-- The digit decode of the polyspectrum symmetry-fill loop
(ComputePowerSpectrum.h:1229-1231): `ik[ii] = i / nbins^ii % nbins`,
so `ik[0]` is the least significant digit. -/
def poly_digits_lsb (nbins order i : ℕ) : List ℕ :=
  (List.range order).map (fun ii => i / nbins ^ ii % nbins)

/-- The validity check shared by both polyspectrum loops
(ComputePowerSpectrum.h:1180-1184 and 1235-1239): `valid` stays true iff
no `ik[ii] > ik[ii-1]` for `ii = 1, ..., order-1`. -/
def chain_nonincreasing (ik : List ℕ) : Bool :=
  (List.range' 1 (ik.length - 1)).all (fun ii => ik.getD ii 0 ≤ ik.getD (ii - 1) 0)

/-- The tuple wavenumber sum of the compute loop
(ComputePowerSpectrum.h:1180-1183): `ksum = sum_{ii=1}^{order-1}
k_bin[ik[ii-1]]`, i.e. `k_bin` summed over all but the last digit. -/
def poly_ksum (kbin : ℕ → ℚ) (ik : List ℕ) : ℚ :=
  ((ik.take (ik.length - 1)).map kbin).sum

/-- The two real-space tuple sums of the compute loop
(ComputePowerSpectrum.h:1193-1212): `F123 = sum_x prod_ii F_k[ik[ii]](x)` and
`N123 = sum_x prod_ii N_k[ik[ii]](x)`; the shell grids `Fk`, `Nk` are passed
as functions from bin and cell. -/
def poly_tuple_sums (Fk Nk : ℕ → ℕ → ℚ) (cells : List ℕ) (ik : List ℕ) : ℚ × ℚ :=
  ((cells.map (fun x => (ik.map (fun b => Fk b x)).prod)).sum,
   (cells.map (fun x => (ik.map (fun b => Nk b x)).prod)).sum)

/-- One entry of the polyspectrum tuple loop (ComputePowerSpectrum.h:1164-1223):
decode the digits; skip non-canonical tuples; zero tuples failing the
closable-polygon test; otherwise normalize both all-reduced sums by
`(1/Nmesh/(2*pi))^d` and set `P123[i] = F/N` if `N > 0` else `0`, and
`N123[i] = N` if `N > 0` else `0`.  Returns the pair `(P123[i], N123[i])`. -/
def compute_polyspectrum_entry (nbins order Nmesh d : ℕ) (kbin : ℕ → ℚ)
    (deltak : ℚ) (Fk Nk : ℕ → ℕ → ℚ) (cells : List ℕ) (i : ℕ) : ℚ × ℚ :=
  let ik := poly_digits_msb nbins order i
  if chain_nonincreasing ik then
    if poly_ksum kbin ik < kbin (ik.getD (order - 1) 0) - (order : ℚ) * deltak / 2 then
      (0, 0)
    else
      let sums := poly_tuple_sums Fk Nk cells ik
      let norm : ℚ := (1 / (Nmesh : ℚ) / twoPi) ^ d
      let F := sums.1 * norm
      let N := sums.2 * norm
      (if 0 < N then F / N else 0, if 0 < N then N else 0)
  else (0, 0)

/-- One iteration of the polyspectrum symmetry-fill loop
(ComputePowerSpectrum.h:1226-1253) acting on one result array: decode the
digits least-significant-first, skip unless they are non-increasing, sort them
ascending, re-encode most-significant-first, and copy `P[i]` into the encoded
cell when that cell still holds `0`. -/
def poly_fill_step (nbins order : ℕ) (P : ℕ → ℚ) (i : ℕ) : ℕ → ℚ :=
  let ik := poly_digits_lsb nbins order i
  if chain_nonincreasing ik then
    let sorted := ik.insertionSort (fun a b => a ≤ b)
    let index := sorted.foldl (fun acc dgt => acc * nbins + dgt) 0
    if P index = 0 then Function.update P index (P i) else P
  else P

/-- The full symmetry-fill loop of `compute_polyspectrum`
(ComputePowerSpectrum.h:1226-1253) over `i = 0, ..., nbins^order - 1`. -/
def poly_symmetry_fill (nbins order : ℕ) (P : ℕ → ℚ) : ℕ → ℚ :=
  (List.range (nbins ^ order)).foldl (poly_fill_step nbins order) P

/-- The two failure kinds of `smoothing_filter_fourier_space`:
the thrown `Unknown filter` runtime error and the `assert_mpi` abort for a
top-hat outside two or three dimensions. -/
inductive SmoothError where
  | unknownKernel (msg : String)
  | unsupportedDim
deriving DecidableEq

/-- `smoothing_filter_fourier_space` (SmoothingFourier.h): select the filter
from the method string (failing on an unknown name, and on `tophat` when the
dimension is not 2 or 3), then multiply every Fourier amplitude by
`filter(kmag)`.  `expQ`, `cosQ` and `sinQ` model the real `std::exp`,
`std::cos` and `std::sin`. -/
def smoothing_filter_fourier_space (expQ cosQ sinQ : ℚ → ℚ) (d : ℕ)
    (smoothing_scale : ℚ) (smoothing_method : String) (kmagOf : ℕ → ℚ)
    (grid : List Cplx) : Except SmoothError (List Cplx) :=
  let filter_sharpk : ℚ → ℚ := fun k =>
    if k * smoothing_scale < 1 then 1 else 0
  let filter_gaussian : ℚ → ℚ := fun k =>
    expQ (-(1 / 2) * (k * smoothing_scale) * (k * smoothing_scale))
  let filter_tophat_2D : ℚ → ℚ := fun k =>
    let kR := k * smoothing_scale
    if kR < 1 / 100000 then 1 else 2 / (kR * kR) * (1 - cosQ kR)
  let filter_tophat_3D : ℚ → ℚ := fun k =>
    let kR := k * smoothing_scale
    if kR < 1 / 100000 then 1 else 3 * (sinQ kR - kR * cosQ kR) / (kR * kR * kR)
  let sel : Except SmoothError (ℚ → ℚ) :=
    if smoothing_method = "sharpk" then Except.ok filter_sharpk
    else if smoothing_method = "gaussian" then Except.ok filter_gaussian
    else if smoothing_method = "tophat" then
      if d = 2 then Except.ok filter_tophat_2D
      else if d = 3 then Except.ok filter_tophat_3D
      else Except.error SmoothError.unsupportedDim
    else Except.error (SmoothError.unknownKernel
      ("Unknown filter " ++ smoothing_method ++ " Options: sharpk, gaussian, tophat"))
  match sel with
  | Except.error e => Except.error e
  | Except.ok filter =>
    Except.ok ((List.range grid.length).map (fun ind =>
      (grid.getD ind ⟨0, 0⟩).scale (filter (kmagOf ind))))

/-- Concrete stand-in for the complex exponential, agreeing with it at
argument `0` (the only argument the concrete evaluations below produce). -/
def cexpOne : ℚ → Cplx := fun _ => ⟨1, 0⟩

/-- Concrete real-function stand-in used where a filter needs `exp`, `cos`
or `sin`. -/
def exampleReal : ℚ → ℚ := fun q => q

/-- A particle sitting at the origin. -/
def partOrigin : ℕ → ℚ := fun _ => 0

/-- A concrete particle position inside the unit box. -/
def examplePos : ℕ → ℚ := fun j => if j = 0 then 1 / 4 else if j = 1 then 9 / 10 else 0

/-- A concrete Fourier amplitude field. -/
def exampleDelta : ℕ → Cplx := fun _ => ⟨1, 0⟩

/-- A concrete wavenumber-norm function. -/
def natKmag : ℕ → ℚ := fun ind => (ind : ℚ)

/-- A concrete line-of-sight vector along the last axis. -/
def exampleLos : List ℚ := [0, 0, 1]

/-- A concrete scatter+FFT stand-in. -/
def exampleScatter : List (ℕ → ℚ) → ℕ → Cplx := fun _ _ => ⟨1, 1⟩

/-- A concrete window-deconvolution stand-in. -/
def exampleDeconv : (ℕ → Cplx) → ℕ → Cplx := fun g => g

/-- Concrete per-axis multipole results. -/
def exampleResults : ℕ → List BinAccum := fun dir =>
  [⟨fun _ => (dir : ℚ) + 1, fun _ => 2, fun _ => 3⟩,
   ⟨fun _ => 4, fun _ => 5, fun _ => 6⟩]

/-- Concrete moment arrays for the Legendre projection. -/
def examplePell : List (ℕ → ℚ) := [fun _ => 1, fun _ => 2, fun _ => 3]

/-- Concrete shell-field stand-ins for the polyspectrum tuple sums. -/
def exampleFk : ℕ → ℕ → ℚ := fun b x => (b : ℚ) + (x : ℚ)

/-- Concrete shell-count stand-in for the polyspectrum tuple sums. -/
def exampleNk : ℕ → ℕ → ℚ := fun _ _ => 1

/-- Concrete bin-center function for the polyspectrum. -/
def exampleKbin : ℕ → ℚ := fun b => (b : ℚ) + 1

/-- The polyspectrum result array of a run with `nbins = 2`, `ORDER = 3` whose
only nonzero computed canonical entry is `P123[6] = 5` (digit tuple `(1,1,0)`
most-significant-first). -/
def polyFillFailingInput : ℕ → ℚ := fun i => if i = 6 then 5 else 0

theorem add_to_bin_pofk (bp : BinParams) (acc : BinAccum) (k v w : ℚ) (b : ℕ) :
    (add_to_bin bp acc k v w).pofk b
      = acc.pofk b + (if bp.bin_of k = some b then v * w else 0) := by
  unfold add_to_bin
  cases h : bp.bin_of k with
  | none => simp [h]
  | some c =>
    simp only [h, Option.some.injEq, Function.update_apply]
    by_cases hbc : b = c
    · subst hbc; simp
    · simp [hbc, Ne.symm hbc]

theorem add_to_bin_count (bp : BinParams) (acc : BinAccum) (k v w : ℚ) (b : ℕ) :
    (add_to_bin bp acc k v w).count b
      = acc.count b + (if bp.bin_of k = some b then w else 0) := by
  unfold add_to_bin
  cases h : bp.bin_of k with
  | none => simp [h]
  | some c =>
    simp only [h, Option.some.injEq, Function.update_apply]
    by_cases hbc : b = c
    · subst hbc; simp
    · simp [hbc, Ne.symm hbc]

theorem bin_up_fold_pofk (Nmesh : ℕ) (bp : BinParams) (delta : ℕ → Cplx)
    (kmagOf : ℕ → ℚ) (inds : List ℕ) (init : BinAccum) (b : ℕ) :
    (inds.foldl (fun acc ind =>
        add_to_bin bp acc (kmagOf ind) (Cplx.normSq (delta ind)) (bin_up_weight Nmesh ind))
      init).pofk b
      = init.pofk b + (inds.map (fun ind =>
          if bp.bin_of (kmagOf ind) = some b
          then Cplx.normSq (delta ind) * bin_up_weight Nmesh ind else 0)).sum := by
  induction inds generalizing init with
  | nil => simp
  | cons a t ih =>
    simp only [List.foldl_cons, List.map_cons, List.sum_cons]
    rw [ih, add_to_bin_pofk]
    ring

theorem bin_up_fold_count (Nmesh : ℕ) (bp : BinParams) (delta : ℕ → Cplx)
    (kmagOf : ℕ → ℚ) (inds : List ℕ) (init : BinAccum) (b : ℕ) :
    (inds.foldl (fun acc ind =>
        add_to_bin bp acc (kmagOf ind) (Cplx.normSq (delta ind)) (bin_up_weight Nmesh ind))
      init).count b
      = init.count b + (inds.map (fun ind =>
          if bp.bin_of (kmagOf ind) = some b then bin_up_weight Nmesh ind else 0)).sum := by
  induction inds generalizing init with
  | nil => simp
  | cons a t ih =>
    simp only [List.foldl_cons, List.map_cons, List.sum_cons]
    rw [ih, add_to_bin_count]
    ring

/-- C1: for every Fourier grid with `Nmesh > 0` and every binning with
`n >= 1`, `kmax > kmin >= 0`, the accumulation loop of
`bin_up_power_spectrum` adds, for each owned Fourier index, `|delta(k)|^2`
to the bin containing `|k|` (both the weighted power and the weight land in
that bin), with weight `2` exactly when the packed-axis coordinate satisfies
`0 < last_coord < Nmesh/2` and weight `1` exactly when `last_coord` is `0`
(DC) or `Nmesh/2` (Nyquist). -/
theorem bin_up_power_spectrum_weights (Nmesh Local_nx d : ℕ) (bp : BinParams)
    (delta : ℕ → Cplx) (kmagOf : ℕ → ℚ)
    (hN : 0 < Nmesh) (hn : 1 ≤ bp.n) (hk : bp.kmin < bp.kmax) (h0 : 0 ≤ bp.kmin) :
    (∀ b, (bin_up_accumulate Nmesh bp delta kmagOf (fourier_range Local_nx Nmesh d)).pofk b
        = ((fourier_range Local_nx Nmesh d).map (fun ind =>
            if bp.bin_of (kmagOf ind) = some b
            then Cplx.normSq (delta ind) * bin_up_weight Nmesh ind else 0)).sum)
    ∧ (∀ b, (bin_up_accumulate Nmesh bp delta kmagOf (fourier_range Local_nx Nmesh d)).count b
        = ((fourier_range Local_nx Nmesh d).map (fun ind =>
            if bp.bin_of (kmagOf ind) = some b then bin_up_weight Nmesh ind else 0)).sum)
    ∧ (∀ ind,
        (bin_up_weight Nmesh ind = 2
          ↔ 0 < ind % (Nmesh / 2 + 1) ∧ ind % (Nmesh / 2 + 1) < Nmesh / 2)
        ∧ (bin_up_weight Nmesh ind = 1
          ↔ ind % (Nmesh / 2 + 1) = 0 ∨ ind % (Nmesh / 2 + 1) = Nmesh / 2)) := by
  refine ⟨fun b => ?_, fun b => ?_, fun ind => ?_⟩
  · unfold bin_up_accumulate
    rw [bin_up_fold_pofk]
    simp [binZero]
  · unfold bin_up_accumulate
    rw [bin_up_fold_count]
    simp [binZero]
  · have hmod : ind % (Nmesh / 2 + 1) < Nmesh / 2 + 1 := Nat.mod_lt ind (by omega)
    unfold bin_up_weight
    by_cases hcond : 0 < ind % (Nmesh / 2 + 1) ∧ ind % (Nmesh / 2 + 1) < Nmesh / 2
    · rw [if_pos hcond]
      constructor
      · exact ⟨fun _ => hcond, fun _ => rfl⟩
      · constructor
        · intro h; norm_num at h
        · intro h; omega
    · rw [if_neg hcond]
      constructor
      · constructor
        · intro h; norm_num at h
        · intro h; exact absurd h hcond
      · exact ⟨fun _ => by omega, fun _ => rfl⟩

theorem bin_up_power_spectrum_weights_witness :
    0 < 4 ∧ 1 ≤ (2 : ℕ) ∧ (0 : ℚ) < 10 ∧ (0 : ℚ) ≤ 0 ∧
    (bin_up_accumulate 4 ⟨2, 0, 10⟩ exampleDelta natKmag (fourier_range 1 4 2)).pofk 0
      = ((fourier_range 1 4 2).map (fun ind =>
          if BinParams.bin_of ⟨2, 0, 10⟩ (natKmag ind) = some 0
          then Cplx.normSq (exampleDelta ind) * bin_up_weight 4 ind else 0)).sum :=
  ⟨by norm_num, by norm_num, by norm_num, le_refl 0,
   (bin_up_power_spectrum_weights 4 1 2 ⟨2, 0, 10⟩ exampleDelta natKmag
      (by norm_num) (by norm_num) (by norm_num) (le_refl 0)).1 0⟩

/-- C2: evaluation at the failing input.  With `nbins = 2`, `ORDER = 3` and a
result array whose only computed nonzero canonical entry is `P123[6] = 5`
(digit tuple `(1,1,0)`), the symmetry-fill loop of `compute_polyspectrum`
leaves the permuted entry at index `3` (digit tuple `(0,1,1)`, a permutation
of the computed one) at `0`, so the stored tensor is not
permutation-symmetric: the fill's source cell, obtained by sorting the
least-significant-first digits and re-encoding them most-significant-first,
is always the loop index itself, and the loop never writes any other cell. -/
theorem poly_symmetry_fill_not_symmetric :
    poly_symmetry_fill 2 3 polyFillFailingInput 3 = 0
    ∧ poly_symmetry_fill 2 3 polyFillFailingInput 6 = 5
    ∧ (poly_digits_lsb 2 3 3).Perm (poly_digits_lsb 2 3 6)
    ∧ poly_symmetry_fill 2 3 polyFillFailingInput 3
      ≠ poly_symmetry_fill 2 3 polyFillFailingInput 6 := by
  refine ⟨?_, ?_, ?_, ?_⟩ <;> decide

/-- C3: for every canonical tuple passing the closable-polygon test, the
tuple sums `F` and `N` are each multiplied by `(1/(2*pi*Nmesh))^d`, the
polyspectrum entry is `F/N` when `N > 0` and `0` otherwise, and the stored
count entry is never negative. -/
theorem compute_polyspectrum_entry_normalized (nbins order Nmesh d : ℕ)
    (kbin : ℕ → ℚ) (deltak : ℚ) (Fk Nk : ℕ → ℕ → ℚ) (cells : List ℕ) (i : ℕ)
    (hvalid : chain_nonincreasing (poly_digits_msb nbins order i) = true)
    (hclose : ¬ poly_ksum kbin (poly_digits_msb nbins order i)
        < kbin ((poly_digits_msb nbins order i).getD (order - 1) 0)
          - (order : ℚ) * deltak / 2) :
    compute_polyspectrum_entry nbins order Nmesh d kbin deltak Fk Nk cells i
      = (if 0 < (poly_tuple_sums Fk Nk cells (poly_digits_msb nbins order i)).2
              * (1 / (twoPi * (Nmesh : ℚ))) ^ d
         then ((poly_tuple_sums Fk Nk cells (poly_digits_msb nbins order i)).1
              * (1 / (twoPi * (Nmesh : ℚ))) ^ d)
            / ((poly_tuple_sums Fk Nk cells (poly_digits_msb nbins order i)).2
              * (1 / (twoPi * (Nmesh : ℚ))) ^ d)
         else 0,
         if 0 < (poly_tuple_sums Fk Nk cells (poly_digits_msb nbins order i)).2
              * (1 / (twoPi * (Nmesh : ℚ))) ^ d
         then (poly_tuple_sums Fk Nk cells (poly_digits_msb nbins order i)).2
              * (1 / (twoPi * (Nmesh : ℚ))) ^ d
         else 0)
    ∧ 0 ≤ (compute_polyspectrum_entry nbins order Nmesh d kbin deltak Fk Nk cells i).2 := by
  have hnorm : 1 / (Nmesh : ℚ) / twoPi = 1 / (twoPi * (Nmesh : ℚ)) := by
    rw [div_div, one_div, one_div, mul_comm]
  have hmain : compute_polyspectrum_entry nbins order Nmesh d kbin deltak Fk Nk cells i
      = (if 0 < (poly_tuple_sums Fk Nk cells (poly_digits_msb nbins order i)).2
              * (1 / (twoPi * (Nmesh : ℚ))) ^ d
         then ((poly_tuple_sums Fk Nk cells (poly_digits_msb nbins order i)).1
              * (1 / (twoPi * (Nmesh : ℚ))) ^ d)
            / ((poly_tuple_sums Fk Nk cells (poly_digits_msb nbins order i)).2
              * (1 / (twoPi * (Nmesh : ℚ))) ^ d)
         else 0,
         if 0 < (poly_tuple_sums Fk Nk cells (poly_digits_msb nbins order i)).2
              * (1 / (twoPi * (Nmesh : ℚ))) ^ d
         then (poly_tuple_sums Fk Nk cells (poly_digits_msb nbins order i)).2
              * (1 / (twoPi * (Nmesh : ℚ))) ^ d
         else 0) := by
    unfold compute_polyspectrum_entry
    rw [if_pos hvalid, if_neg hclose, hnorm]
  refine ⟨hmain, ?_⟩
  have h2 : (compute_polyspectrum_entry nbins order Nmesh d kbin deltak Fk Nk cells i).2
      = (if 0 < (poly_tuple_sums Fk Nk cells (poly_digits_msb nbins order i)).2
              * (1 / (twoPi * (Nmesh : ℚ))) ^ d
         then (poly_tuple_sums Fk Nk cells (poly_digits_msb nbins order i)).2
              * (1 / (twoPi * (Nmesh : ℚ))) ^ d
         else 0) := by rw [hmain]
  by_cases hpos : 0 < (poly_tuple_sums Fk Nk cells (poly_digits_msb nbins order i)).2
      * (1 / (twoPi * (Nmesh : ℚ))) ^ d
  · rw [h2, if_pos hpos]; exact le_of_lt hpos
  · rw [h2, if_neg hpos]

theorem compute_polyspectrum_entry_normalized_witness :
    chain_nonincreasing (poly_digits_msb 2 3 4) = true
    ∧ ¬ poly_ksum exampleKbin (poly_digits_msb 2 3 4)
        < exampleKbin ((poly_digits_msb 2 3 4).getD (3 - 1) 0) - ((3 : ℕ) : ℚ) * 1 / 2
    ∧ 0 ≤ (compute_polyspectrum_entry 2 3 4 3 exampleKbin 1 exampleFk exampleNk [0, 1] 4).2 := by
  have hd : poly_digits_msb 2 3 4 = [1, 0, 0] := by decide
  have hclose : ¬ poly_ksum exampleKbin (poly_digits_msb 2 3 4)
      < exampleKbin ((poly_digits_msb 2 3 4).getD (3 - 1) 0) - ((3 : ℕ) : ℚ) * 1 / 2 := by
    rw [hd]
    norm_num [poly_ksum, exampleKbin]
  exact ⟨by decide, hclose,
    (compute_polyspectrum_entry_normalized 2 3 4 3 exampleKbin 1 exampleFk exampleNk [0, 1] 4
      (by decide) hclose).2⟩

/-- C4 counterexample: with two particles at the origin, on the rank owning
`k = 0`, the grid filled by `compute_power_spectrum_direct_summation` holds
`(sum - 1)/NumPart = 1/2` at the zero index, while the claim's reading
`delta(0) = (1/NumPart)*sum - 1` gives `0`: the code subtracts the `1` from
the particle sum before the `1/NumPart` normalization, not after. -/
theorem direct_summation_k0_counterexample :
    ds_grid cexpOne 4 3 0 [partOrigin, partOrigin] 0 0
      ≠ ds_grid_claimed cexpOne 4 3 0 [partOrigin, partOrigin] 0 0 := by
  have hL : ds_grid cexpOne 4 3 0 [partOrigin, partOrigin] 0 0 = ⟨1 / 2, 0⟩ := by
    simp [ds_grid, ds_sum, dotIdx, cexpOne, partOrigin, Cplx.sub, Cplx.scale]
  have hR : ds_grid_claimed cexpOne 4 3 0 [partOrigin, partOrigin] 0 0 = ⟨0, 0⟩ := by
    simp [ds_grid_claimed, ds_sum, dotIdx, cexpOne, partOrigin, Cplx.sub, Cplx.scale]
    norm_num
  rw [hL, hR]
  intro h
  have h2 := congrArg Cplx.re h
  norm_num at h2

/-- C4 amended: `compute_power_spectrum_direct_summation` sets, at every owned
Fourier index other than the `k = 0` index of rank 0,
`delta(k) = (1/NumPart) * sum_i exp(-i k.x_i)`; at the `k = 0` index of rank 0
it subtracts `1` from the particle sum before the `1/NumPart` normalization,
so `delta(0) = (sum - 1)/NumPart`; it then bins the grid with
`bin_up_power_spectrum` and subtracts the shot noise `1/NumPart` from every
bin of the result. -/
theorem direct_summation_grid_spec (cexp : ℚ → Cplx) (kmagOf : ℕ → ℚ)
    (Ngrid d lxs Local_nx task : ℕ) (parts : List (ℕ → ℚ)) (bp : BinParams)
    (ind b : ℕ) :
    (¬ (task = 0 ∧ ind = 0) →
      ds_grid cexp Ngrid d lxs parts task ind
        = (ds_sum cexp d (fourier_kvec Ngrid d lxs ind) parts).scale
            (1 / (parts.length : ℚ)))
    ∧ (ds_grid cexp Ngrid d lxs parts 0 0).re
        = ((ds_sum cexp d (fourier_kvec Ngrid d lxs 0) parts).re - 1)
            / (parts.length : ℚ)
    ∧ (ds_grid cexp Ngrid d lxs parts 0 0).im
        = (ds_sum cexp d (fourier_kvec Ngrid d lxs 0) parts).im / (parts.length : ℚ)
    ∧ (compute_power_spectrum_direct_summation cexp kmagOf Ngrid d lxs Local_nx
          task parts bp).pofk b
        = (if b < bp.n
           then (bin_up_power_spectrum Ngrid Local_nx d bp
                  (ds_grid cexp Ngrid d lxs parts task) kmagOf).pofk b
                - 1 / (parts.length : ℚ)
           else (bin_up_power_spectrum Ngrid Local_nx d bp
                  (ds_grid cexp Ngrid d lxs parts task) kmagOf).pofk b) := by
  refine ⟨fun h => ?_, ?_, ?_, rfl⟩
  · simp only [ds_grid]
    rw [if_neg h]
  · simp [ds_grid, Cplx.sub, Cplx.scale]
    ring
  · simp [ds_grid, Cplx.sub, Cplx.scale]
    ring

theorem direct_summation_grid_spec_witness :
    (¬ ((1 : ℕ) = 0 ∧ (0 : ℕ) = 0))
    ∧ ds_grid cexpOne 4 3 0 [partOrigin] 1 0
      = (ds_sum cexpOne 3 (fourier_kvec 4 3 0 0) [partOrigin]).scale
          (1 / (([partOrigin] : List (ℕ → ℚ)).length : ℚ)) :=
  ⟨by simp,
   (direct_summation_grid_spec cexpOne natKmag 4 3 0 1 1 [partOrigin] ⟨1, 0, 1⟩ 0 0).1
     (by simp)⟩

/-- C5: `compute_power_spectrum_interlacing` scatters the particles twice, the
second time with every position component shifted by `+1/(2*Ngrid)` (modulo
the periodic wrap), and replaces the first grid's amplitude at every owned
Fourier index by
`delta(k) = (1/2)*(G1hat(k) + exp(i*(sum_j k_j)/(2*Ngrid))*G2hat(k))`, before
performing a single window deconvolution and binning (with the shot noise
subtracted at the end). -/
theorem interlacing_combine_spec (cexp : ℚ → Cplx) (kmagOf : ℕ → ℚ)
    (scatterFFT : List (ℕ → ℚ) → ℕ → Cplx) (deconv : (ℕ → Cplx) → ℕ → Cplx)
    (Ngrid d lxs Local_nx npt : ℕ) (parts : List (ℕ → ℚ)) (bp : BinParams) :
    (∀ ind,
      interlace_combine cexp Ngrid d lxs (scatterFFT parts)
          (scatterFFT (parts.map (interlace_shift (1 / (2 * (Ngrid : ℚ))) d))) ind
        = Cplx.scale
            ((scatterFFT parts ind).add
              ((cexp ((fourier_kvec Ngrid d lxs ind).sum / (2 * (Ngrid : ℚ)))).mul
                (scatterFFT (parts.map (interlace_shift (1 / (2 * (Ngrid : ℚ))) d)) ind)))
            (1 / 2))
    ∧ (∀ p, p ∈ parts → ∀ j, j < d →
        interlace_shift (1 / (2 * (Ngrid : ℚ))) d p j = p j + 1 / (2 * (Ngrid : ℚ))
        ∨ interlace_shift (1 / (2 * (Ngrid : ℚ))) d p j
            = p j + 1 / (2 * (Ngrid : ℚ)) - 1)
    ∧ compute_power_spectrum_interlacing cexp kmagOf scatterFFT deconv Ngrid d lxs
          Local_nx npt parts bp
        = ⟨fun b => if b < bp.n
              then (bin_up_power_spectrum Ngrid Local_nx d bp
                      (deconv (interlace_combine cexp Ngrid d lxs (scatterFFT parts)
                        (scatterFFT (parts.map
                          (interlace_shift (1 / (2 * (Ngrid : ℚ))) d))))) kmagOf).pofk b
                   - 1 / (npt : ℚ)
              else (bin_up_power_spectrum Ngrid Local_nx d bp
                      (deconv (interlace_combine cexp Ngrid d lxs (scatterFFT parts)
                        (scatterFFT (parts.map
                          (interlace_shift (1 / (2 * (Ngrid : ℚ))) d))))) kmagOf).pofk b,
           (bin_up_power_spectrum Ngrid Local_nx d bp
              (deconv (interlace_combine cexp Ngrid d lxs (scatterFFT parts)
                (scatterFFT (parts.map
                  (interlace_shift (1 / (2 * (Ngrid : ℚ))) d))))) kmagOf).kbin,
           (bin_up_power_spectrum Ngrid Local_nx d bp
              (deconv (interlace_combine cexp Ngrid d lxs (scatterFFT parts)
                (scatterFFT (parts.map
                  (interlace_shift (1 / (2 * (Ngrid : ℚ))) d))))) kmagOf).count⟩ := by
  refine ⟨fun ind => ?_, fun p _ j hj => ?_, rfl⟩
  · simp only [interlace_combine, interlace_kfactor, mul_one_div]
  · simp only [interlace_shift]
    by_cases hj0 : j = 0
    · subst hj0
      simp
    · rw [if_neg hj0, if_pos hj]
      by_cases hw : 1 ≤ p j + 1 / (2 * (Ngrid : ℚ))
      · rw [if_pos hw]; right; rfl
      · rw [if_neg hw]; left; rfl

theorem interlacing_combine_spec_witness :
    examplePos ∈ ([examplePos] : List (ℕ → ℚ)) ∧ 1 < 3 ∧
    (interlace_shift (1 / (2 * ((2 : ℕ) : ℚ))) 3 examplePos 1
        = examplePos 1 + 1 / (2 * ((2 : ℕ) : ℚ))
      ∨ interlace_shift (1 / (2 * ((2 : ℕ) : ℚ))) 3 examplePos 1
        = examplePos 1 + 1 / (2 * ((2 : ℕ) : ℚ)) - 1) :=
  ⟨List.mem_singleton.mpr rfl, by norm_num,
   (interlacing_combine_spec cexpOne natKmag exampleScatter exampleDeconv 2 3 0 1 4
      [examplePos] ⟨1, 0, 1⟩).2.1 examplePos (List.mem_singleton.mpr rfl) 1
      (by norm_num)⟩

/-- C9: after `compute_power_spectrum_interlacing` returns, every particle
position component equals its value on entry: the `+1/(2*Ngrid)` shift applied
for the second scatter is undone, with the periodic wrap, for every component
of every particle whose position lies in `[0, 1)`. -/
theorem interlacing_positions_restored (Ngrid d : ℕ) (pos : ℕ → ℚ)
    (hpos : ∀ j, j < d → 0 ≤ pos j ∧ pos j < 1) (j : ℕ) :
    interlace_unshift (1 / (2 * (Ngrid : ℚ))) d
        (interlace_shift (1 / (2 * (Ngrid : ℚ))) d pos) j = pos j := by
  simp only [interlace_unshift, interlace_shift]
  by_cases hj0 : j = 0
  · subst hj0
    simp
  · by_cases hjd : j < d
    · rw [if_neg hj0, if_pos hjd, if_neg hj0, if_pos hjd]
      obtain ⟨h0, h1⟩ := hpos j hjd
      by_cases hw : 1 ≤ pos j + 1 / (2 * (Ngrid : ℚ))
      · rw [if_pos hw, if_pos (by linarith)]
        ring
      · rw [if_neg hw, if_neg (by linarith)]
        ring
    · rw [if_neg hj0, if_neg hjd, if_neg hj0, if_neg hjd]

theorem interlacing_positions_restored_witness :
    (∀ j, j < 3 → 0 ≤ examplePos j ∧ examplePos j < 1)
    ∧ interlace_unshift (1 / (2 * ((2 : ℕ) : ℚ))) 3
        (interlace_shift (1 / (2 * ((2 : ℕ) : ℚ))) 3 examplePos) 1 = examplePos 1 :=
  ⟨fun j hj => by interval_cases j <;> norm_num [examplePos],
   interlacing_positions_restored 2 3 examplePos
     (fun j hj => by interval_cases j <;> norm_num [examplePos]) 1⟩

theorem getD_map_range {α : Type} (f : ℕ → α) (n m : ℕ) (dflt : α) (h : m < n) :
    ((List.range n).map f).getD m dflt = f m := by
  rw [List.getD_eq_getElem?_getD, List.getElem?_map, List.getElem?_range h]
  rfl

theorem foldl_mul_div (a b : ℕ → ℚ) (l : List ℕ) (init : ℚ) :
    l.foldl (fun res i => res * a i / b i) init
      = init * (l.map (fun i => a i / b i)).prod := by
  induction l generalizing init with
  | nil => simp
  | cons x t ih =>
    simp only [List.foldl_cons, List.map_cons, List.prod_cons]
    rw [ih]
    ring

theorem prod_map_div (a b : ℕ → ℚ) (l : List ℕ) :
    (l.map (fun i => a i / b i)).prod = (l.map a).prod / (l.map b).prod := by
  induction l with
  | nil => simp
  | cons x t ih =>
    simp only [List.map_cons, List.prod_cons, ih]
    rw [div_mul_div_comm]

theorem prod_range_sub_cast (n m : ℕ) (h : m ≤ n) :
    ((List.range m).map (fun (i : ℕ) => ((n : ℚ) - (i : ℚ)))).prod
      = (n.descFactorial m : ℚ) := by
  induction m with
  | zero => simp
  | succ m ih =>
    have hm : m ≤ n := Nat.le_of_succ_le h
    rw [List.range_succ, List.map_append, List.prod_append, ih hm,
      Nat.descFactorial_succ]
    simp only [List.map_cons, List.map_nil, List.prod_cons, List.prod_nil, mul_one]
    push_cast [Nat.cast_sub hm]
    ring

theorem codeBinomial_eq_choose (n k : ℕ) (h : k ≤ n) :
    codeBinomial n k = (n.choose k : ℚ) := by
  unfold codeBinomial
  rw [foldl_mul_div (fun (i : ℕ) => (n : ℚ) - (i : ℚ)) (fun (i : ℕ) => (k : ℚ) - (i : ℚ)),
    one_mul, prod_map_div, prod_range_sub_cast n k h,
    prod_range_sub_cast k k (le_refl k), Nat.descFactorial_self,
    Nat.choose_eq_descFactorial_div_factorial,
    Nat.cast_div (Nat.factorial_dvd_descFactorial n k)
      (Nat.cast_ne_zero.mpr (Nat.factorial_ne_zero k))]

theorem sign_eq_neg_one_pow (k : ℕ) :
    (if k % 2 = 0 then (1 : ℚ) else -1) = (-1 : ℚ) ^ k := by
  rcases Nat.even_or_odd k with he | ho
  · rw [if_pos (Nat.even_iff.mp he), he.neg_one_pow]
  · have h1 : k % 2 = 1 := Nat.odd_iff.mp ho
    rw [if_neg (by omega), ho.neg_one_pow]

/-- C6: the grid-based `compute_power_spectrum_multipoles` converts the
accumulated moments `<|delta|^2 mu^m>` into Legendre multipoles by
`P_ell[i] = sum_{m=0}^{ell/2} c_{ell,m} * <|delta|^2 mu^(ell-2m)>[i]` with
`c_{ell,m} = (-1)^m * binom(ell,m) * binom(2ell-2m,ell) / 2^ell`, for every
`ell` below the number of requested multipoles. -/
theorem multipole_legendre_projection (Pell : List (ℕ → ℚ)) (ell i : ℕ)
    (hell : ell < Pell.length) :
    (legendre_project Pell).getD ell (fun _ => 0) i
      = ((List.range (ell / 2 + 1)).map (fun m =>
          (-1 : ℚ) ^ m * ((ell.choose m : ℕ) : ℚ)
            * (((2 * ell - 2 * m).choose ell : ℕ) : ℚ) / 2 ^ ell
            * Pell.getD (ell - 2 * m) (fun _ => 0) i)).sum := by
  unfold legendre_project
  rw [getD_map_range _ _ _ _ hell]
  refine congrArg List.sum (List.map_congr_left fun m hm => ?_)
  have hm2 : 2 * m ≤ ell := by
    have := List.mem_range.mp hm
    omega
  unfold summand_legendre
  rw [sign_eq_neg_one_pow, codeBinomial_eq_choose ell m (by omega),
    codeBinomial_eq_choose (2 * ell - 2 * m) ell (by omega)]
  ring

theorem multipole_legendre_projection_witness :
    2 < examplePell.length
    ∧ (legendre_project examplePell).getD 2 (fun _ => 0) 0
      = ((List.range (2 / 2 + 1)).map (fun m =>
          (-1 : ℚ) ^ m * ((Nat.choose 2 m : ℕ) : ℚ)
            * (((2 * 2 - 2 * m).choose 2 : ℕ) : ℚ) / 2 ^ 2
            * examplePell.getD (2 - 2 * m) (fun _ => 0) 0)).sum :=
  ⟨by norm_num [examplePell],
   multipole_legendre_projection examplePell 2 0 (by norm_num [examplePell])⟩

theorem foldl_binAdd_pofk (results : ℕ → List BinAccum) (ell i : ℕ)
    (l : List ℕ) (init : BinAccum) :
    (l.foldl (fun acc dir => binAdd acc ((results dir).getD ell binZero)) init).pofk i
      = init.pofk i + (l.map (fun dir => ((results dir).getD ell binZero).pofk i)).sum := by
  induction l generalizing init with
  | nil => simp
  | cons a t ih =>
    simp only [List.foldl_cons, List.map_cons, List.sum_cons]
    rw [ih]
    simp only [binAdd]
    ring

theorem foldl_binAdd_kbin (results : ℕ → List BinAccum) (ell i : ℕ)
    (l : List ℕ) (init : BinAccum) :
    (l.foldl (fun acc dir => binAdd acc ((results dir).getD ell binZero)) init).kbin i
      = init.kbin i + (l.map (fun dir => ((results dir).getD ell binZero).kbin i)).sum := by
  induction l generalizing init with
  | nil => simp
  | cons a t ih =>
    simp only [List.foldl_cons, List.map_cons, List.sum_cons]
    rw [ih]
    simp only [binAdd]
    ring

theorem foldl_binAdd_count (results : ℕ → List BinAccum) (ell i : ℕ)
    (l : List ℕ) (init : BinAccum) :
    (l.foldl (fun acc dir => binAdd acc ((results dir).getD ell binZero)) init).count i
      = init.count i + (l.map (fun dir => ((results dir).getD ell binZero).count i)).sum := by
  induction l generalizing init with
  | nil => simp
  | cons a t ih =>
    simp only [List.foldl_cons, List.map_cons, List.sum_cons]
    rw [ih]
    simp only [binAdd]
    ring

/-- C7: the particle-based `compute_power_spectrum_multipoles` returns, in each
multipole `ell` and bin `i`, the arithmetic mean over the `d` coordinate-axis
line-of-sight results of `pofk`, `count` and `kbin`, and then subtracts
`1/NumPartTotal` from every `pofk` bin of the monopole `Pell[0]` only. -/
theorem particle_multipoles_mean (d nell nbin npt : ℕ) (results : ℕ → List BinAccum)
    (ell i : ℕ) (hell : ell < nell) (hi : i < nbin) :
    ((multipoles_average d nell nbin npt results).getD ell binZero).pofk i
      = ((List.range d).map (fun dir => ((results dir).getD ell binZero).pofk i)).sum
          / (d : ℚ) - (if ell = 0 then 1 / (npt : ℚ) else 0)
    ∧ ((multipoles_average d nell nbin npt results).getD ell binZero).kbin i
      = ((List.range d).map (fun dir => ((results dir).getD ell binZero).kbin i)).sum
          / (d : ℚ)
    ∧ ((multipoles_average d nell nbin npt results).getD ell binZero).count i
      = ((List.range d).map (fun dir => ((results dir).getD ell binZero).count i)).sum
          / (d : ℚ) := by
  unfold multipoles_average
  rw [getD_map_range _ _ _ _ hell]
  by_cases h0 : ell = 0
  · subst h0
    simp only [eq_self_iff_true, if_true, hi]
    refine ⟨?_, ?_, ?_⟩
    · rw [foldl_binAdd_pofk]
      simp [binZero]
    · rw [foldl_binAdd_kbin]
      simp [binZero]
    · rw [foldl_binAdd_count]
      simp [binZero]
  · simp only [if_neg h0, hi, if_true]
    refine ⟨?_, ?_, ?_⟩
    · rw [foldl_binAdd_pofk]
      simp [binZero]
    · rw [foldl_binAdd_kbin]
      simp [binZero]
    · rw [foldl_binAdd_count]
      simp [binZero]

theorem particle_multipoles_mean_witness :
    1 < 2 ∧ 0 < 2 ∧
    ((multipoles_average 3 2 2 8 exampleResults).getD 1 binZero).pofk 0
      = ((List.range 3).map
          (fun dir => ((exampleResults dir).getD 1 binZero).pofk 0)).sum / ((3 : ℕ) : ℚ)
        - (if (1 : ℕ) = 0 then 1 / ((8 : ℕ) : ℚ) else 0) :=
  ⟨by norm_num, by norm_num,
   (particle_multipoles_mean 3 2 2 8 exampleResults 1 0 (by norm_num) (by norm_num)).1⟩

theorem coords_k0_all_zero (Nmesh d c : ℕ)
    (hc : c ∈ fourier_coords Nmesh d 0 0) : c = 0 := by
  unfold fourier_coords at hc
  simp only [Nat.zero_div, Nat.zero_mod, Nat.add_zero] at hc
  rcases List.mem_cons.mp hc with h | h
  · exact h
  rcases List.mem_append.mp h with h2 | h2
  · obtain ⟨j, _, hj⟩ := List.mem_map.mp h2
    exact hj.symm
  · exact List.mem_singleton.mp h2

theorem fourier_mode2_k0 (Nmesh d : ℕ) : fourier_mode2 Nmesh d 0 0 = 0 := by
  have hmode : ∀ m ∈ fourier_mode Nmesh d 0 0, m = 0 := by
    intro m hm
    unfold fourier_mode at hm
    rcases List.mem_append.mp hm with h | h
    · obtain ⟨c, hc, hceq⟩ := List.mem_map.mp h
      rw [← hceq, coords_k0_all_zero Nmesh d c (List.mem_of_mem_take hc)]
      unfold axis_mode
      rw [if_pos (Nat.zero_le _)]
      rfl
    · obtain ⟨c, hc, hceq⟩ := List.mem_map.mp h
      rw [← hceq, coords_k0_all_zero Nmesh d c (List.mem_of_mem_drop hc)]
      rfl
  unfold fourier_mode2
  apply List.sum_eq_zero
  intro x hx
  obtain ⟨m, hm, hmeq⟩ := List.mem_map.mp hx
  rw [← hmeq, hmode m hm]
  ring

/-- C8 counterexample: with the valid line of sight `(0,0,1)` and the grid
`Nmesh = 4`, `d = 3`, rank 0 (`local_x_start = 0`, `Local_nx = 2`), the
`k = 0` index `ind = 0` is processed by the binning loop of the grid-based
`compute_power_spectrum_multipoles`, and there the divisor `kmag * rnorm` of
the `mu` computation vanishes (`kmag = 0`), so the claim that the divisor is
nonzero at every owned Fourier index is false. -/
theorem multipole_mu_divisor_counterexample :
    (0 : ℚ) < dotQ exampleLos exampleLos
    ∧ 0 ∈ fourier_range 2 4 3
    ∧ ¬ (∀ ind ∈ fourier_range 2 4 3, ¬ mu_divisor_vanishes 4 3 0 exampleLos ind) := by
  refine ⟨by norm_num [dotQ, exampleLos], by decide, fun hall => ?_⟩
  exact hall 0 (by decide) (Or.inl (fourier_mode2_k0 4 3))

/-- C8 amended: in the binning loop of the grid-based
`compute_power_spectrum_multipoles`, the divisor `kmag * rnorm` of the `mu`
computation is nonzero at every owned index whose wavevector is nonzero
(given the asserted `rnorm > 0`); at the `k = 0` index, owned by the rank
with `local_x_start = 0`, the divisor vanishes and the division is
ill-defined. -/
theorem multipole_mu_divisor_spec (Nmesh d lxs ind : ℕ) (los : List ℚ)
    (hlos : 0 < dotQ los los) (hmode : fourier_mode2 Nmesh d lxs ind ≠ 0) :
    ¬ mu_divisor_vanishes Nmesh d lxs los ind
    ∧ mu_divisor_vanishes Nmesh d 0 los 0 := by
  constructor
  · rintro (h | h)
    · exact hmode h
    · exact absurd h (ne_of_gt hlos)
  · exact Or.inl (fourier_mode2_k0 Nmesh d)

theorem multipole_mu_divisor_spec_witness :
    (0 : ℚ) < dotQ exampleLos exampleLos
    ∧ fourier_mode2 4 3 0 5 ≠ 0
    ∧ ¬ mu_divisor_vanishes 4 3 0 exampleLos 5 :=
  ⟨by norm_num [dotQ, exampleLos], by decide,
   (multipole_mu_divisor_spec 4 3 0 5 exampleLos (by norm_num [dotQ, exampleLos])
      (by decide)).1⟩

/-- C10: `smoothing_filter_fourier_space` with a `smoothing_method` other than
`sharpk`, `gaussian` or `tophat` fails with the unknown-kernel error, and
`tophat` with grid dimension outside `{2, 3}` fails with the
unsupported-dimension error; in both cases the call returns the error and no
modified grid, so no Fourier amplitude is changed. -/
theorem smoothing_filter_error_cases (expQ cosQ sinQ : ℚ → ℚ) (d : ℕ) (R : ℚ)
    (method : String) (kmagOf : ℕ → ℚ) (grid : List Cplx) :
    (method ≠ "sharpk" → method ≠ "gaussian" → method ≠ "tophat" →
      smoothing_filter_fourier_space expQ cosQ sinQ d R method kmagOf grid
        = Except.error (SmoothError.unknownKernel
            ("Unknown filter " ++ method ++ " Options: sharpk, gaussian, tophat")))
    ∧ (d ≠ 2 → d ≠ 3 →
      smoothing_filter_fourier_space expQ cosQ sinQ d R "tophat" kmagOf grid
        = Except.error SmoothError.unsupportedDim) := by
  constructor
  · intro h1 h2 h3
    simp only [smoothing_filter_fourier_space]
    rw [if_neg h1, if_neg h2, if_neg h3]
  · intro h2 h3
    simp only [smoothing_filter_fourier_space, if_true]
    rw [if_neg h2, if_neg h3]
    simp

theorem smoothing_filter_error_cases_witness :
    ("boxcar" : String) ≠ "sharpk"
    ∧ ("boxcar" : String) ≠ "gaussian"
    ∧ ("boxcar" : String) ≠ "tophat"
    ∧ (4 : ℕ) ≠ 2 ∧ (4 : ℕ) ≠ 3
    ∧ smoothing_filter_fourier_space exampleReal exampleReal exampleReal 4 1
        "boxcar" natKmag []
      = Except.error (SmoothError.unknownKernel
          ("Unknown filter " ++ "boxcar" ++ " Options: sharpk, gaussian, tophat"))
    ∧ smoothing_filter_fourier_space exampleReal exampleReal exampleReal 4 1
        "tophat" natKmag []
      = Except.error SmoothError.unsupportedDim :=
  ⟨by decide, by decide, by decide, by decide, by decide,
   (smoothing_filter_error_cases exampleReal exampleReal exampleReal 4 1 "boxcar"
      natKmag []).1 (by decide) (by decide) (by decide),
   (smoothing_filter_error_cases exampleReal exampleReal exampleReal 4 1 "tophat"
      natKmag []).2 (by decide) (by decide)⟩
